import Mathlib

/-!
Verification development for the temporal-semantic-weaving core.

Shallow embedding of the Python sources:
 - `src/core/wave.py`, `src/core/resonance_field.py`
 - `src/temporal/decay.py`
 - `src/quantum/superposition.py`, `src/quantum/entanglement.py`
 - `src/holographic/holographic_memory.py`

Modelling conventions:
 - Python floats are modelled as real numbers `ℝ`, complex numpy entries as `ℂ`.
 - The external embedding provider (`EmbeddingEngine`) maps a text to an
   optional vector and a keyword set; operations that in Python receive a text
   here receive the provider's output directly (an arbitrary `List ℝ` vector
   and a `Finset String` keyword set), which quantifies over every possible
   provider behaviour allowed by the spec's interface contract.
 - `uuid.uuid4()` identifiers are modelled by a fresh-counter `nextId`;
   uniqueness of uuids is the idealisation of their probabilistic uniqueness.
 - Python's stable `list.sort(key=..., reverse=True)` is modelled by a stable
   descending insertion sort on the score component.
 - The random decoherence noise of `Wave.apply_decay` only perturbs
   `quantum_state`; no claim below depends on the quantum state of a reachable
   wave, so the decay step models the amplitude update (the deterministic part)
   and leaves `quantum_state` untouched.
-/

noncomputable section

/-- Python `x or 1.0` applied to a nonnegative float norm
(`np.linalg.norm(v) or 1.0` in `_apply_interference` / `find_resonances`). -/
def pyOr (x : ℝ) : ℝ := if x = 0 then 1 else x

/-- Python `a % b` for real operands with `b > 0` (flooring modulus),
used for `phase = (self.time * 0.1) % (2 * math.pi)`. -/
def pymod (a b : ℝ) : ℝ := a - b * (⌊a / b⌋ : ℝ)

/-- Euclidean norm of a real vector, `np.linalg.norm`. -/
def euclNorm {d : ℕ} (v : Fin d → ℝ) : ℝ := Real.sqrt (∑ i, v i ^ 2)

/-- Real dot product, `np.dot`. -/
def dotP {d : ℕ} (v w : Fin d → ℝ) : ℝ := ∑ i, v i * w i

/-- Euclidean norm of a complex vector stored as a list, `np.linalg.norm`. -/
def cnorm (l : List ℂ) : ℝ := Real.sqrt (l.map (fun z => Complex.normSq z)).sum

-- Constants of `src/core/resonance_field.py`.

/-- Minimum weighted similarity to consider constructive (`CONSTRUCTIVE_THRESHOLD`). -/
def CONSTRUCTIVE_THRESHOLD : ℝ := 0.05

/-- Cosine-similarity level that triggers entanglement (`ENTANGLE_THRESHOLD`). -/
def ENTANGLE_THRESHOLD : ℝ := 0.45

/-- Boost per overlapping keyword (`KEYWORD_BONUS`). -/
def KEYWORD_BONUS : ℝ := 0.15

/-- Normalised entanglement bonus (`ENTANGLEMENT_ALPHA`). -/
def ENTANGLEMENT_ALPHA : ℝ := 0.05

/-- Maximum size of the quantum state slice (`MAX_QUANTUM_DIM`). -/
def MAX_QUANTUM_DIM : ℕ := 100

/-- Ceiling on the field tensor's largest absolute entry (`FIELD_NORM_LIMIT`). -/
def FIELD_NORM_LIMIT : NNReal := 10

/-- `Wave` of `src/core/wave.py`: one ingested experience.  The vector always
has the field dimension `d` (a field wave is created by
`ResonanceField._create_wave`, which pads/truncates to `self.dimensions`). -/
structure Wave (d : ℕ) where
  id : ℕ
  vector : Fin d → ℝ
  amplitude : ℝ
  frequency : ℝ
  phase : ℝ
  timestamp : ℝ
  sourceText : String
  keywords : Finset String
  quantumState : Option (List ℂ)
  entangledWith : Finset ℕ

/-- Pad or truncate an embedding vector to the field dimension
(the `if len(vector) != self.dimensions` branch of `_create_wave`;
entry `i` is `vector[i]` when in range and `0.0` otherwise). -/
def resizeVec (d : ℕ) (v : List ℝ) : Fin d → ℝ := fun i => v.getD i 0

/-- The fixed keyword → frequency lookup table of
`ResonanceField._calculate_frequency`. -/
def freqMap (k : String) : Option ℝ :=
  if k = "coffee" then some 2.0 else if k = "morning" then some 2.5 else
  if k = "ritual" then some 2.3 else if k = "guitar" then some 3.0 else
  if k = "practice" then some 3.2 else if k = "chords" then some 3.5 else
  if k = "career" then some 4.0 else if k = "promotion" then some 4.2 else
  if k = "work" then some 4.1 else if k = "sarah" then some 5.0 else
  if k = "friend" then some 5.2 else if k = "help" then some 5.1 else none

/-- `ResonanceField._calculate_frequency`: `1.0` for no keywords, otherwise the
mean of the per-keyword lookups (default `1.0`). -/
def calcFrequency (kw : Finset String) : ℝ :=
  if kw = ∅ then 1 else (∑ k ∈ kw, (freqMap k).getD 1) / kw.card

/-- `ResonanceField._create_quantum_state`: take the first
`min(MAX_QUANTUM_DIM, d)` vector entries, pair them with a `np.roll`-shifted
copy scaled by `0.5` on the imaginary part, bump a degenerate zero state by
`1e-9`, and unit-normalise. -/
def createQuantumState {d : ℕ} (v : Fin d → ℝ) : List ℂ :=
  let L := min MAX_QUANTUM_DIM d
  let re : List ℝ := (List.range L).map fun i => if h : i < d then v ⟨i, h⟩ else 0
  let roll := max 1 (L / 4)
  let im : List ℝ := (List.range L).map fun i => re.getD ((i + (L - roll % L)) % L) 0
  let q : List ℂ := List.zipWith (fun a b => (a : ℂ) + Complex.I * (b : ℂ) * 0.5) re im
  if cnorm q = 0 then
    let q' := q.map (fun z => z + 1e-9)
    q'.map (fun z => z / (cnorm q' : ℂ))
  else q.map (fun z => z / (cnorm q : ℂ))

/-- State of a `ResonanceField` together with the separate
`QuantumEntanglement` adjacency graph of `src/quantum/entanglement.py`
(`self.graph`, a dict defaulting to the empty set). -/
structure SysState (d : ℕ) where
  waves : List (Wave d)
  fieldTensor : Fin d → Fin d → ℂ
  time : ℝ
  nextId : ℕ
  graph : ℕ → Finset ℕ

/-- `ResonanceField._create_wave` (with the embedding provider's output given
as `v`, `kw`): a fresh wave of amplitude `1.0`. -/
def createWave {d : ℕ} (s : SysState d) (v : List ℝ) (kw : Finset String)
    (txt : String) : Wave d :=
  { id := s.nextId
    vector := resizeVec d v
    amplitude := 1
    frequency := calcFrequency kw
    phase := pymod (s.time * 0.1) (2 * Real.pi)
    timestamp := s.time
    sourceText := txt
    keywords := kw
    quantumState := some (createQuantumState (resizeVec d v))
    entangledWith := ∅ }

/-- The similarity score of `_apply_interference`: cosine similarity of the raw
vectors (with `or 1.0` guards on the norms) plus `KEYWORD_BONUS` per
overlapping keyword.  `qn` is the precomputed `qnorm` of the new wave. -/
def interfSim {d : ℕ} (n w : Wave d) (qn : ℝ) : ℝ :=
  dotP n.vector w.vector / (qn * pyOr (euclNorm w.vector))
    + KEYWORD_BONUS * ((n.keywords ∩ w.keywords).card : ℝ)

/-- Update of an existing wave by one `_apply_interference` loop iteration:
entanglement trigger, then the constructive / destructive amplitude update
(`weighted` is computed from the existing wave's amplitude before the update). -/
def existingUpd {d : ℕ} (n : Wave d) (qn : ℝ) (w : Wave d) : Wave d :=
  let sim := interfSim n w qn
  let weighted := sim * w.amplitude
  { w with
    entangledWith :=
      if ENTANGLE_THRESHOLD < sim then insert n.id w.entangledWith
      else w.entangledWith
    amplitude :=
      if CONSTRUCTIVE_THRESHOLD < weighted then w.amplitude * (1 + 0.05 * weighted)
      else if weighted < -0.2 then w.amplitude * (1 - 0.03 * |weighted|)
      else w.amplitude }

/-- Update of the new wave by one `_apply_interference` loop iteration against
existing wave `w`: entanglement trigger and the (smaller) constructive boost. -/
def newUpd {d : ℕ} (n : Wave d) (qn : ℝ) (w : Wave d) : Wave d :=
  let sim := interfSim n w qn
  let weighted := sim * w.amplitude
  { n with
    entangledWith :=
      if ENTANGLE_THRESHOLD < sim then insert w.id n.entangledWith
      else n.entangledWith
    amplitude :=
      if CONSTRUCTIVE_THRESHOLD < weighted then n.amplitude * (1 + 0.03 * weighted)
      else n.amplitude }

/-- The `for w in self.waves` loop of `_apply_interference`, threading the
mutating new wave through the iterations and returning the new wave, the
updated existing waves (in order) and the raw `(source_text[:200], weighted)`
result list. -/
def interfLoop {d : ℕ} (qn : ℝ) :
    Wave d → List (Wave d) → Wave d × List (Wave d) × List (String × ℝ)
  | n, [] => (n, [], [])
  | n, w :: rest =>
    let p := interfLoop qn (newUpd n qn w) rest
    (p.1, existingUpd n qn w :: p.2.1,
      (w.sourceText.take 200, interfSim n w qn * w.amplitude) :: p.2.2)

/-- The set of existing-wave ids whose similarity with the new wave `n` exceeds
`ENTANGLE_THRESHOLD` (the ids `_apply_interference` adds to the new wave's
`entangled_with`). -/
def entIds {d : ℕ} (n : Wave d) (qn : ℝ) (ws : List (Wave d)) : Finset ℕ :=
  ws.foldr
    (fun w acc => if ENTANGLE_THRESHOLD < interfSim n w qn then insert w.id acc else acc) ∅

/-- Stable insertion into a descending-by-score list (ties keep the earlier
element first, as Python's stable sort does). -/
def insertScored {α : Type} (x : α × ℝ) : List (α × ℝ) → List (α × ℝ)
  | [] => [x]
  | y :: ys => if y.2 ≤ x.2 then x :: y :: ys else y :: insertScored x ys

/-- Stable descending sort by score: the model of
`results.sort(key=lambda x: x[1], reverse=True)`. -/
def sortDesc {α : Type} : List (α × ℝ) → List (α × ℝ)
  | [] => []
  | x :: xs => insertScored x (sortDesc xs)

/-- `ResonanceField._apply_interference` (`top_k = 3`): run the loop and return
the top-3 results sorted descending, together with the updated waves. -/
def applyInterference {d : ℕ} (n : Wave d) (ws : List (Wave d)) :
    Wave d × List (Wave d) × List (String × ℝ) :=
  let p := interfLoop (pyOr (euclNorm n.vector)) n ws
  (p.1, p.2.1, (sortDesc p.2.2).take 3)

/-- The rank-1 contribution `wave.amplitude * np.outer(vec, vec) * exp(1j*phase)`
accumulated by `ResonanceField._update_field_tensor`. -/
def tensorContrib {d : ℕ} (w : Wave d) : Fin d → Fin d → ℂ :=
  fun i j =>
    (w.amplitude : ℂ) * ((w.vector i : ℂ) * (w.vector j : ℂ))
      * Complex.exp ((w.phase : ℂ) * Complex.I)

/-- `np.max(np.abs(tensor))`: the largest absolute value of a tensor entry. -/
def maxAbsEntry {d : ℕ} (T : Fin d → Fin d → ℂ) : NNReal :=
  Finset.univ.sup fun p : Fin d × Fin d => ‖T p.1 p.2‖₊

/-- `ResonanceField._update_field_tensor`: accumulate the wave's rank-1
contribution, then clip by dividing the whole tensor by
`max_val / FIELD_NORM_LIMIT` whenever `max_val` exceeds the limit.  (A field
wave's vector always has length `d`, so the shape-resize branch of the source
is never taken.) -/
def updateFieldTensor {d : ℕ} (T : Fin d → Fin d → ℂ) (w : Wave d) :
    Fin d → Fin d → ℂ :=
  let T' : Fin d → Fin d → ℂ := fun i j => T i j + tensorContrib w i j
  if FIELD_NORM_LIMIT < maxAbsEntry T' then
    fun i j => T' i j / (((maxAbsEntry T' / FIELD_NORM_LIMIT : NNReal) : ℝ) : ℂ)
  else T'

/-- `ResonanceField.add_experience` (with the embedding provider's output for
the ingested text given as `v`, `kw`): create the wave, run interference
against every live wave, append the new wave, update the field tensor with it,
and advance field time by one. -/
def addExperience {d : ℕ} (s : SysState d) (v : List ℝ) (kw : Finset String)
    (txt : String) : SysState d :=
  let n := createWave s v kw txt
  let p := applyInterference n s.waves
  { s with
    waves := p.2.1 ++ [p.1]
    fieldTensor := updateFieldTensor s.fieldTensor p.1
    time := s.time + 1
    nextId := s.nextId + 1 }

/-- The new wave produced by `add_experience` (after its interference boosts),
i.e. the wave the source appends to `self.waves`. -/
def newWaveOf {d : ℕ} (s : SysState d) (v : List ℝ) (kw : Finset String)
    (txt : String) : Wave d :=
  (applyInterference (createWave s v kw txt) s.waves).1

/-- Amplitude part of `Wave.apply_decay`: `self.amplitude *= decay_factor`. -/
def decayWave {d : ℕ} (fac : ℝ) (w : Wave d) : Wave d :=
  { w with amplitude := w.amplitude * fac }

/-- One decay pass over the field (`EnhancedTSW._apply_temporal_decay`): every
live wave's amplitude is multiplied by its per-wave decay factor `f w`. -/
def decayAll {d : ℕ} (s : SysState d) (f : Wave d → ℝ) : SysState d :=
  { s with waves := s.waves.map fun w => decayWave (f w) w }

/-- `MemoryConsolidation._should_consolidate` (threshold `0.7`). -/
def shouldConsolidate {d : ℕ} (t : ℝ) (w : Wave d) : Prop :=
  ¬ (t - w.timestamp < 8) ∧
    (0.7 < w.amplitude ∨ 2 ≤ w.entangledWith.card ∨ 4 ≤ w.keywords.card)

instance {d : ℕ} (t : ℝ) (w : Wave d) : Decidable (shouldConsolidate t w) := by
  unfold shouldConsolidate; infer_instance

/-- `MemoryConsolidation._apply_consolidation`: amplitude `*= 1.1` capped at
`max_amplitude = 2.0`; the quantum state is scaled by `1.05` and renormalised
when its norm is positive. -/
def applyConsolidation {d : ℕ} (w : Wave d) : Wave d :=
  { w with
    amplitude := min (w.amplitude * 1.1) 2
    quantumState :=
      match w.quantumState with
      | none => none
      | some qs =>
        let q2 := qs.map (fun z => z * 1.05)
        if 0 < cnorm q2 then some (q2.map (fun z => z / (cnorm q2 : ℂ))) else some q2 }

/-- One wave of `MemoryConsolidation.consolidate`. -/
def consolidateWave {d : ℕ} (t : ℝ) (w : Wave d) : Wave d :=
  if shouldConsolidate t w then applyConsolidation w else w

/-- `MemoryConsolidation.consolidate` applied to the field's waves at the
current field time (as `EnhancedTSW._apply_temporal_decay` does). -/
def consolidateAll {d : ℕ} (s : SysState d) : SysState d :=
  { s with waves := s.waves.map (consolidateWave s.time) }

/-- The weak-wave pruning of `EnhancedTSW._apply_temporal_decay`:
`[w for w in waves if w.amplitude > 0.01]`. -/
def pruneWeak {d : ℕ} (s : SysState d) : SysState d :=
  { s with waves := s.waves.filter fun w => 0.01 < w.amplitude }

/-- `QuantumEntanglement.entangle_waves` on two member waves given by id:
no-op on equal ids, otherwise the edge is recorded in both directions in the
adjacency graph and mirrored into both waves' `entangled_with` sets. -/
def entangleWaves {d : ℕ} (s : SysState d) (a b : ℕ) : SysState d :=
  if a = b then s
  else
    { s with
      graph := fun x =>
        if x = a then insert b (s.graph a)
        else if x = b then insert a (s.graph b)
        else s.graph x
      waves := s.waves.map fun w =>
        if w.id = a then { w with entangledWith := insert b w.entangledWith }
        else if w.id = b then { w with entangledWith := insert a w.entangledWith }
        else w }

/-- A fresh system: empty `ResonanceField(d)` plus an empty
`QuantumEntanglement` graph. -/
def initState (d : ℕ) : SysState d :=
  { waves := [], fieldTensor := fun _ _ => 0, time := 0, nextId := 0, graph := fun _ => ∅ }

/-- One step of the system: an ingested experience, a decay pass with per-wave
factors in the decay functions' output range, a consolidation pass, the
weak-wave pruning, or an explicit `entangle_waves` call (as the `EnhancedTSW`
pipeline performs them). -/
inductive Step {d : ℕ} : SysState d → SysState d → Prop
  | add (s : SysState d) (v : List ℝ) (kw : Finset String) (txt : String) :
      Step s (addExperience s v kw txt)
  | decay (s : SysState d) (f : Wave d → ℝ)
      (hf : ∀ w, (0.05 : ℝ) ≤ f w ∧ f w ≤ 1) : Step s (decayAll s f)
  | consolidate (s : SysState d) : Step s (consolidateAll s)
  | prune (s : SysState d) : Step s (pruneWeak s)
  | entangle (s : SysState d) (a b : ℕ) (ha : a ∈ s.waves.map Wave.id)
      (hb : b ∈ s.waves.map Wave.id) : Step s (entangleWaves s a b)

/-- States reachable from a fresh system by any operation sequence. -/
def Reachable {d : ℕ} (s : SysState d) : Prop :=
  Relation.ReflTransGen Step (initState d) s

/-- One capped kinetic term of `get_field_energy`: amplitude clamped into
`[-1e10, 1e10]`, frequency into `[0.01, 1000.0]`, the product `amp**2 * freq`
capped at `1e15`. -/
def energyTerm {d : ℕ} (w : Wave d) : ℝ :=
  min 1e15 ((max (-1e10) (min 1e10 w.amplitude)) ^ 2 * max 0.01 (min 1000 w.frequency))

/-- The kinetic accumulation loop of `get_field_energy`, capping the running
sum at `1e15` on every iteration. -/
def kineticFold {d : ℕ} (l : List (Wave d)) : ℝ :=
  l.foldl (fun k w => min 1e15 (k + energyTerm w)) 0

/-- `ResonanceField.get_field_energy`: kinetic term with per-wave clamps and a
running cap, capped potential term, vacuum term, and a final cap at `1e15`. -/
def getFieldEnergy {d : ℕ} (s : SysState d) : ℝ :=
  let kinetic := kineticFold s.waves
  let potential := min 1e15 (∑ i, ∑ j, Complex.abs (s.fieldTensor i j) ^ 2)
  let vacuum := 0.01 * (s.waves.length : ℝ)
  min 1e15 (kinetic + potential + vacuum)

/-- `ResonanceField.find_resonances`, state-passing to make its freedom from
side effects explicit (the source mutates nothing).  The query embedding is
given as the provider's output: `none` for empty text, else a raw vector. -/
def findResonances {d : ℕ} (s : SysState d) (q : Option (Fin d → ℝ)) (k : ℕ) :
    SysState d × List (Wave d × ℝ) :=
  match q with
  | none => (s, [])
  | some qv =>
    if euclNorm qv = 0 then (s, [])
    else
      let results := s.waves.map fun w =>
        let sim := dotP qv w.vector / (euclNorm qv * pyOr (euclNorm w.vector))
        let ec := w.entangledWith.card
        (w, if 0 < ec then sim * (1 + ENTANGLEMENT_ALPHA * ((ec : ℝ) / ((ec : ℝ) + 5)))
            else sim)
      (s, (sortDesc results).take k)

-- `src/temporal/decay.py`, class `TemporalDecay`.

/-- Decay floor `TemporalDecay.MIN_DECAY`. -/
def MIN_DECAY : ℝ := 0.05

/-- Decay ceiling `TemporalDecay.MAX_DECAY`. -/
def MAX_DECAY : ℝ := 1

/-- `TemporalDecay.exponential_decay` at the default rate `0.01`. -/
def exponential_decay (t : ℝ) : ℝ :=
  max MIN_DECAY (min (Real.exp (-(0.01) * t)) MAX_DECAY)

/-- `TemporalDecay.power_law_decay` at the default exponent `0.5`.  For
`1 + t > 0` Python's `(1.0 + t) ** 0.5` is the real square root; for
`1 + t = 0` the subsequent `1.0 / 0.0` raises `ZeroDivisionError`, and for
`1 + t < 0` the power is complex, so `min(raw, 1.0)` raises `TypeError`:
both failure modes are modelled by `none`. -/
def power_law_decay (t : ℝ) : Option ℝ :=
  if 1 + t ≤ 0 then none
  else some (max MIN_DECAY (min (1 / Real.sqrt (1 + t)) MAX_DECAY))

/-- `TemporalDecay.adaptive_decay` (the unused `field_context` dict argument is
omitted). -/
def adaptive_decay {d : ℕ} (w : Wave d) (t : ℝ) : ℝ :=
  let base := Real.exp (-(0.01) * t)
  let importance_norm := min 1 ((w.keywords.card : ℝ) / 12)
  let entanglement_norm := min 1 ((w.entangledWith.card : ℝ) / 10)
  let prot := base * (0.7 + 0.3 * importance_norm + 0.3 * entanglement_norm)
  max MIN_DECAY (min prot MAX_DECAY)

/-- `TemporalDecay.interference_protected_decay`; `active_resonances` is an
arbitrary (possibly negative) integer count. -/
def interference_protected_decay (t : ℝ) (active_resonances : ℤ) : ℝ :=
  let base := Real.exp (-(0.01) * t)
  let protection := 1 + min 0.8 ((active_resonances : ℝ) * 0.1)
  max MIN_DECAY (min (base * protection) MAX_DECAY)

-- `src/quantum/superposition.py`, class `QuantumSuperposition`.

/-- The canonical superposition dimensionality of `create_superposition`: the
largest `quantum_state` length among the waves, `0` when none has one. -/
def maxQDim {d : ℕ} (ws : List (Wave d)) : ℕ :=
  (ws.filterMap Wave.quantumState).foldr (fun qs acc => max qs.length acc) 0

/-- Pad with zeros or trim a state to length `n` (the dimension-matching step of
`create_superposition`). -/
def padTo (n : ℕ) (qs : List ℂ) : List ℂ :=
  (List.range n).map fun i => qs.getD i 0

/-- The amplitude- and phase-weighted accumulation loop of
`create_superposition`: `combined += w.amplitude * exp(1j*w.phase) * state`. -/
def superSum {d : ℕ} (ws : List (Wave d)) (n : ℕ) : List ℂ :=
  ws.foldl
    (fun acc w =>
      match w.quantumState with
      | none => acc
      | some qs =>
        List.zipWith (· + ·) acc
          ((padTo n qs).map fun z =>
            (w.amplitude : ℂ) * Complex.exp (Complex.I * (w.phase : ℂ)) * z))
    (List.replicate n 0)

/-- `QuantumSuperposition.create_superposition`: empty result for an empty list
or when no wave has a state; otherwise the accumulated sum, normalised only
when its norm is positive. -/
def createSuperposition {d : ℕ} (ws : List (Wave d)) : List ℂ :=
  if ws.isEmpty then []
  else
    let n := maxQDim ws
    if n = 0 then []
    else
      let combined := superSum ws n
      if 0 < cnorm combined then combined.map (fun z => z / (cnorm combined : ℂ))
      else combined

/-- `QuantumSuperposition.collapse_wavefunction`: truncate both vectors to the
common length, fail when the truncated measurement has zero norm, otherwise
return the normalised truncated measurement and `|<m|psi>|^2`.  The embedding
is pure: the argument arrays are (trivially) not modified. -/
def collapseWavefunction (psi m : List ℂ) : Except String (List ℂ × ℝ) :=
  let dim := min psi.length m.length
  let psi' := psi.take dim
  let m' := m.take dim
  if cnorm m' = 0 then Except.error "Measurement vector cannot be zero-norm."
  else
    let mh := m'.map (fun z => z / (cnorm m' : ℂ))
    let overlap := (List.zipWith (fun a b => (starRingEnd ℂ) a * b) mh psi').sum
    Except.ok (mh, Complex.abs overlap ^ 2)

-- `src/holographic/holographic_memory.py`, class `HolographicMemory`.

/-- State of a `HolographicMemory` of size `S`. -/
structure HoloState (S : ℕ) where
  hologram : Fin S → Fin S → ℂ
  count : ℕ

/-- `np.fft.ifft2` on an `S × S` complex matrix. -/
def ifft2 {S : ℕ} (H : Fin S → Fin S → ℂ) : Fin S → Fin S → ℂ :=
  fun a b =>
    (((S : ℂ) * (S : ℂ))⁻¹) *
      ∑ j, ∑ k,
        H j k *
          Complex.exp (2 * (Real.pi : ℂ) * Complex.I *
            (((a : ℕ) : ℂ) * ((j : ℕ) : ℂ) / (S : ℂ) + ((b : ℕ) : ℂ) * ((k : ℕ) : ℂ) / (S : ℂ)))

/-- `HolographicMemory.reconstruct`, state-passing (the source reads
`self.hologram` through a copy and never writes it).  A damage mask carries its
own runtime shape `(m, n)` as a numpy array does; a shape mismatch is the
`ValueError` of the source.  The `try` around the inverse transform never
fails in the model. -/
def reconstructS {S : ℕ} (mem : HoloState S)
    (mask : Option (ℕ × ℕ × (ℕ → ℕ → ℝ))) :
    HoloState S × Except String (Fin S → Fin S → ℝ) :=
  match mask with
  | none => (mem, Except.ok fun a b => Complex.abs (ifft2 mem.hologram a b))
  | some (m, n, M) =>
    if m = S ∧ n = S then
      (mem,
        Except.ok fun a b =>
          Complex.abs (ifft2 (fun i j => mem.hologram i j * ((M i j : ℝ) : ℂ)) a b))
    else (mem, Except.error "damage_mask must match hologram shape")

/-- The consolidation amplitude ceiling `MemoryConsolidation.max_amplitude`. -/
def maxAmplitude : ℝ := 2

set_option maxRecDepth 10000

-- Concrete inputs used by witnesses and counterexamples below.

/-- A keyword set of 134 distinct tokens.  With the fixed bonus of `0.15` per
overlapping keyword, a repeated experience carrying these keywords reaches a
similarity of `0.15 * 134 = 20.1`, far above every threshold. -/
def kwBig : Finset String := ((List.range 134).map (fun i => toString i)).toFinset

/-- Two ingestions of the same 134-keyword experience (zero embedding vector):
the constructive-interference boost multiplies the first wave's amplitude by
`1 + 0.05 * 20.1 = 2.005`, above the consolidation ceiling of `2.0`. -/
def cexCeil : SysState 1 :=
  addExperience (addExperience (initState 1) [] kwBig "") [] kwBig ""

/-- One ingestion followed by two decay passes at the decay floor `0.05`
(e.g. `exponential_decay` of a time delta of `300` is exactly `0.05`): the
wave's amplitude becomes `0.05 * 0.05 = 0.0025`, below the floor. -/
def cexFloor : SysState 1 :=
  decayAll (decayAll (addExperience (initState 1) [] ∅ "") fun _ => 0.05) fun _ => 0.05

/-- A directly constructed wave (the `Wave` dataclass has a public
constructor) with amplitude `0` and the present quantum state `[1]`: its
superposition sum is the zero vector, which `create_superposition` returns
unnormalised. -/
def wZero : Wave 0 :=
  { id := 0, vector := fun _ => 0, amplitude := 0, frequency := 1, phase := 0,
    timestamp := 0, sourceText := "", keywords := ∅, quantumState := some [1],
    entangledWith := ∅ }

/-- A directly constructed wave with amplitude `1`, phase `0` and quantum
state `[1]`, whose superposition sum is the unit vector `[1]`. -/
def wUnit : Wave 0 :=
  { id := 1, vector := fun _ => 0, amplitude := 1, frequency := 1, phase := 0,
    timestamp := 0, sourceText := "", keywords := ∅, quantumState := some [1],
    entangledWith := ∅ }

/-- The state invariant maintained by every operation: wave ids are distinct
and below the fresh counter, entanglement sets mention only ids below the
counter, no wave is entangled with itself, wave-level entanglement membership
is symmetric, and the separate adjacency graph is symmetric and loop-free. -/
def SysInv {d : ℕ} (s : SysState d) : Prop :=
  (s.waves.map Wave.id).Nodup ∧
  (∀ w ∈ s.waves, w.id < s.nextId) ∧
  (∀ w ∈ s.waves, ∀ x ∈ w.entangledWith, x < s.nextId) ∧
  (∀ w ∈ s.waves, w.id ∉ w.entangledWith) ∧
  (∀ a ∈ s.waves, ∀ b ∈ s.waves, (a.id ∈ b.entangledWith ↔ b.id ∈ a.entangledWith)) ∧
  (∀ x y, x ∈ s.graph y ↔ y ∈ s.graph x) ∧
  (∀ x, x ∉ s.graph x)

-- ## Helper lemmas

@[simp] theorem existingUpd_id {d : ℕ} (n : Wave d) (qn : ℝ) (w : Wave d) :
    (existingUpd n qn w).id = w.id := rfl

@[simp] theorem existingUpd_vector {d : ℕ} (n : Wave d) (qn : ℝ) (w : Wave d) :
    (existingUpd n qn w).vector = w.vector := rfl

@[simp] theorem existingUpd_keywords {d : ℕ} (n : Wave d) (qn : ℝ) (w : Wave d) :
    (existingUpd n qn w).keywords = w.keywords := rfl

theorem existingUpd_ent {d : ℕ} (n : Wave d) (qn : ℝ) (w : Wave d) :
    (existingUpd n qn w).entangledWith =
      if ENTANGLE_THRESHOLD < interfSim n w qn then insert n.id w.entangledWith
      else w.entangledWith := rfl

@[simp] theorem newUpd_id {d : ℕ} (n : Wave d) (qn : ℝ) (w : Wave d) :
    (newUpd n qn w).id = n.id := rfl

@[simp] theorem newUpd_vector {d : ℕ} (n : Wave d) (qn : ℝ) (w : Wave d) :
    (newUpd n qn w).vector = n.vector := rfl

@[simp] theorem newUpd_keywords {d : ℕ} (n : Wave d) (qn : ℝ) (w : Wave d) :
    (newUpd n qn w).keywords = n.keywords := rfl

theorem newUpd_ent {d : ℕ} (n : Wave d) (qn : ℝ) (w : Wave d) :
    (newUpd n qn w).entangledWith =
      if ENTANGLE_THRESHOLD < interfSim n w qn then insert w.id n.entangledWith
      else n.entangledWith := rfl

theorem interfSim_congr {d : ℕ} (n n₂ : Wave d) (qn : ℝ) (w : Wave d)
    (hv : n₂.vector = n.vector) (hk : n₂.keywords = n.keywords) :
    interfSim n₂ w qn = interfSim n w qn := by
  unfold interfSim; rw [hv, hk]

theorem existingUpd_congr {d : ℕ} (n n₂ : Wave d) (qn : ℝ) (w : Wave d)
    (hv : n₂.vector = n.vector) (hk : n₂.keywords = n.keywords)
    (hid : n₂.id = n.id) :
    existingUpd n₂ qn w = existingUpd n qn w := by
  unfold existingUpd; rw [interfSim_congr n n₂ qn w hv hk, hid]

theorem entIds_congr {d : ℕ} (n n₂ : Wave d) (qn : ℝ) (ws : List (Wave d))
    (hv : n₂.vector = n.vector) (hk : n₂.keywords = n.keywords) :
    entIds n₂ qn ws = entIds n qn ws := by
  induction ws with
  | nil => rfl
  | cons w rest ih => simp only [entIds, List.foldr] at ih ⊢
                      rw [interfSim_congr n n₂ qn w hv hk, ih]

theorem mem_entIds {d : ℕ} (n : Wave d) (qn : ℝ) (ws : List (Wave d)) (x : ℕ) :
    x ∈ entIds n qn ws ↔ ∃ w ∈ ws, ENTANGLE_THRESHOLD < interfSim n w qn ∧ x = w.id := by
  induction ws with
  | nil => simp [entIds]
  | cons w rest ih =>
    simp only [entIds, List.foldr] at ih ⊢
    by_cases h : ENTANGLE_THRESHOLD < interfSim n w qn
    · simp only [if_pos h, Finset.mem_insert, ih, List.mem_cons]
      constructor
      · rintro (hx | ⟨w₂, hw₂, hs, hx⟩)
        · exact ⟨w, Or.inl rfl, h, hx⟩
        · exact ⟨w₂, Or.inr hw₂, hs, hx⟩
      · rintro ⟨w₂, hw₂ | hw₂, hs, hx⟩
        · exact Or.inl (by rw [hx, hw₂])
        · exact Or.inr ⟨w₂, hw₂, hs, hx⟩
    · simp only [if_neg h, ih, List.mem_cons]
      constructor
      · rintro ⟨w₂, hw₂, hs, hx⟩
        exact ⟨w₂, Or.inr hw₂, hs, hx⟩
      · rintro ⟨w₂, hw₂ | hw₂, hs, hx⟩
        · exact absurd (hw₂ ▸ hs) h
        · exact ⟨w₂, hw₂, hs, hx⟩

theorem interfLoop_waves {d : ℕ} (qn : ℝ) (ws : List (Wave d)) :
    ∀ n n₂ : Wave d, n₂.vector = n.vector → n₂.keywords = n.keywords →
      n₂.id = n.id → (interfLoop qn n₂ ws).2.1 = ws.map (existingUpd n qn) := by
  induction ws with
  | nil => intro n n₂ _ _ _; rfl
  | cons w rest ih =>
    intro n n₂ hv hk hid
    simp only [interfLoop, List.map]
    rw [existingUpd_congr n n₂ qn w hv hk hid]
    refine congrArg _ ?_
    exact ih n (newUpd n₂ qn w) (by simp [hv]) (by simp [hk]) (by simp [hid])

theorem interfLoop_fst_stable {d : ℕ} (qn : ℝ) (ws : List (Wave d)) :
    ∀ n : Wave d, (interfLoop qn n ws).1.id = n.id ∧
      (interfLoop qn n ws).1.vector = n.vector ∧
      (interfLoop qn n ws).1.keywords = n.keywords := by
  induction ws with
  | nil => intro n; exact ⟨rfl, rfl, rfl⟩
  | cons w rest ih =>
    intro n
    simp only [interfLoop]
    exact ⟨(ih (newUpd n qn w)).1, (ih (newUpd n qn w)).2.1, (ih (newUpd n qn w)).2.2⟩

theorem interfLoop_fst_ent {d : ℕ} (qn : ℝ) (ws : List (Wave d)) :
    ∀ n : Wave d,
      (interfLoop qn n ws).1.entangledWith = n.entangledWith ∪ entIds n qn ws := by
  induction ws with
  | nil => intro n; simp [interfLoop, entIds]
  | cons w rest ih =>
    intro n
    simp only [interfLoop]
    rw [ih (newUpd n qn w),
      entIds_congr n (newUpd n qn w) qn rest (newUpd_vector n qn w) (newUpd_keywords n qn w),
      newUpd_ent]
    simp only [entIds, List.foldr]
    by_cases h : ENTANGLE_THRESHOLD < interfSim n w qn
    · rw [if_pos h, if_pos h, Finset.insert_union, Finset.union_insert]
    · rw [if_neg h, if_neg h]

theorem sysInv_init (d : ℕ) : SysInv (initState d) := by
  refine ⟨List.nodup_nil, ?_, ?_, ?_, ?_, ?_, ?_⟩ <;> simp [initState]

theorem sysInv_map {d : ℕ} (s : SysState d) (u : Wave d → Wave d)
    (hid : ∀ w, (u w).id = w.id)
    (hent : ∀ w, (u w).entangledWith = w.entangledWith)
    (h : SysInv s) : SysInv { s with waves := s.waves.map u } := by
  obtain ⟨h1, h2, h3, h4, h5, h6, h7⟩ := h
  refine ⟨?_, ?_, ?_, ?_, ?_, h6, h7⟩
  · have : Wave.id ∘ u = Wave.id := funext hid
    rw [List.map_map, this]
    exact h1
  · intro w hw
    obtain ⟨w₀, hw₀, rfl⟩ := List.mem_map.1 hw
    rw [hid]
    exact h2 w₀ hw₀
  · intro w hw
    obtain ⟨w₀, hw₀, rfl⟩ := List.mem_map.1 hw
    rw [hent]
    exact h3 w₀ hw₀
  · intro w hw
    obtain ⟨w₀, hw₀, rfl⟩ := List.mem_map.1 hw
    rw [hid, hent]
    exact h4 w₀ hw₀
  · intro a ha b hb
    obtain ⟨a₀, ha₀, rfl⟩ := List.mem_map.1 ha
    obtain ⟨b₀, hb₀, rfl⟩ := List.mem_map.1 hb
    rw [hid, hid, hent, hent]
    exact h5 a₀ ha₀ b₀ hb₀

theorem consolidateWave_id {d : ℕ} (t : ℝ) (w : Wave d) :
    (consolidateWave t w).id = w.id := by
  unfold consolidateWave applyConsolidation
  split <;> rfl

theorem consolidateWave_ent {d : ℕ} (t : ℝ) (w : Wave d) :
    (consolidateWave t w).entangledWith = w.entangledWith := by
  unfold consolidateWave applyConsolidation
  split <;> rfl

theorem sysInv_decay {d : ℕ} (s : SysState d) (f : Wave d → ℝ) (h : SysInv s) :
    SysInv (decayAll s f) :=
  sysInv_map s (fun w => decayWave (f w) w) (fun _ => rfl) (fun _ => rfl) h

theorem sysInv_consolidate {d : ℕ} (s : SysState d) (h : SysInv s) :
    SysInv (consolidateAll s) :=
  sysInv_map s (consolidateWave s.time) (consolidateWave_id s.time)
    (consolidateWave_ent s.time) h

theorem sysInv_prune {d : ℕ} (s : SysState d) (h : SysInv s) :
    SysInv (pruneWeak s) := by
  obtain ⟨h1, h2, h3, h4, h5, h6, h7⟩ := h
  have hsub : ∀ w ∈ (pruneWeak s).waves, w ∈ s.waves := by
    intro w hw
    exact List.mem_of_mem_filter hw
  refine ⟨?_, fun w hw => h2 w (hsub w hw), fun w hw => h3 w (hsub w hw),
    fun w hw => h4 w (hsub w hw),
    fun a ha b hb => h5 a (hsub a ha) b (hsub b hb), h6, h7⟩
  exact h1.sublist ((List.filter_sublist s.waves).map Wave.id)

theorem sysInv_entangle {d : ℕ} (s : SysState d) (a b : ℕ)
    (ha : a ∈ s.waves.map Wave.id) (hb : b ∈ s.waves.map Wave.id)
    (h : SysInv s) : SysInv (entangleWaves s a b) := by
  obtain ⟨h1, h2, h3, h4, h5, h6, h7⟩ := h
  have hinj := List.inj_on_of_nodup_map h1
  have haN : a < s.nextId := by
    obtain ⟨wa, hwa, rfl⟩ := List.mem_map.1 ha
    exact h2 wa hwa
  have hbN : b < s.nextId := by
    obtain ⟨wb, hwb, rfl⟩ := List.mem_map.1 hb
    exact h2 wb hwb
  unfold entangleWaves
  by_cases hab : a = b
  · rw [if_pos hab]
    exact ⟨h1, h2, h3, h4, h5, h6, h7⟩
  rw [if_neg hab]
  set u : Wave d → Wave d := fun w =>
    if w.id = a then { w with entangledWith := insert b w.entangledWith }
    else if w.id = b then { w with entangledWith := insert a w.entangledWith }
    else w with hu
  have huid : ∀ w, (u w).id = w.id := by
    intro w
    rw [hu]
    dsimp only
    split
    · rfl
    · split <;> rfl
  have huent : ∀ w, (u w).entangledWith =
      if w.id = a then insert b w.entangledWith
      else if w.id = b then insert a w.entangledWith
      else w.entangledWith := by
    intro w
    rw [hu]
    dsimp only
    split
    · rfl
    · split <;> rfl
  refine ⟨?_, ?_, ?_, ?_, ?_, ?_, ?_⟩
  · have : Wave.id ∘ u = Wave.id := funext huid
    rw [List.map_map, this]
    exact h1
  · intro w hw
    obtain ⟨w₀, hw₀, rfl⟩ := List.mem_map.1 hw
    rw [huid]
    exact h2 w₀ hw₀
  · intro w hw x hx
    obtain ⟨w₀, hw₀, rfl⟩ := List.mem_map.1 hw
    rw [huent] at hx
    split at hx
    · rcases Finset.mem_insert.1 hx with rfl | hx
      · exact hbN
      · exact h3 w₀ hw₀ x hx
    · split at hx
      · rcases Finset.mem_insert.1 hx with rfl | hx
        · exact haN
        · exact h3 w₀ hw₀ x hx
      · exact h3 w₀ hw₀ x hx
  · intro w hw
    obtain ⟨w₀, hw₀, rfl⟩ := List.mem_map.1 hw
    rw [huid, huent]
    split
    · rename_i hwa
      rw [hwa]
      simp only [Finset.mem_insert]
      rintro (rfl | hmem)
      · exact hab rfl
      · exact h4 w₀ hw₀ (hwa ▸ hmem)
    · split
      · rename_i hwb
        rw [hwb]
        simp only [Finset.mem_insert]
        rintro (rfl | hmem)
        · exact hab rfl
        · exact h4 w₀ hw₀ (hwb ▸ hmem)
      · exact h4 w₀ hw₀
  · intro x hx y hy
    obtain ⟨x₀, hx₀, rfl⟩ := List.mem_map.1 hx
    obtain ⟨y₀, hy₀, rfl⟩ := List.mem_map.1 hy
    rw [huid, huid, huent, huent]
    by_cases hya : y₀.id = a
    · rw [if_pos hya]
      by_cases hxa : x₀.id = a
      · have : x₀ = y₀ := hinj hx₀ hy₀ (hxa.trans hya.symm)
        subst this
        rw [if_pos hxa]
      · rw [if_neg hxa]
        by_cases hxb : x₀.id = b
        · rw [if_pos hxb, hxb, hya]
          simp [Finset.mem_insert]
        · rw [if_neg hxb]
          simp only [Finset.mem_insert, hxb, false_or]
          exact h5 x₀ hx₀ y₀ hy₀
    · rw [if_neg hya]
      by_cases hyb : y₀.id = b
      · rw [if_pos hyb]
        by_cases hxb : x₀.id = b
        · have : x₀ = y₀ := hinj hx₀ hy₀ (hxb.trans hyb.symm)
          subst this
          rw [if_neg hya, if_pos hxb]
        · rw [if_neg hxb]
          by_cases hxa : x₀.id = a
          · rw [if_pos hxa, hxa, hyb]
            simp [Finset.mem_insert]
          · rw [if_neg hxa]
            simp only [Finset.mem_insert, hxa, false_or]
            exact h5 x₀ hx₀ y₀ hy₀
      · rw [if_neg hyb]
        by_cases hxa : x₀.id = a
        · rw [if_pos hxa]
          simp only [Finset.mem_insert, hyb, false_or]
          exact h5 x₀ hx₀ y₀ hy₀
        · rw [if_neg hxa]
          by_cases hxb : x₀.id = b
          · rw [if_pos hxb]
            simp only [Finset.mem_insert, hya, false_or]
            exact h5 x₀ hx₀ y₀ hy₀
          · rw [if_neg hxb]
            exact h5 x₀ hx₀ y₀ hy₀
  · intro x y
    dsimp only
    by_cases hya : y = a
    · subst hya
      by_cases hxa : x = y
      · subst hxa
        rfl
      · by_cases hxb : x = b
        · subst hxb
          rw [if_pos rfl, if_neg hxa, if_pos rfl]
          simp [Finset.mem_insert]
        · rw [if_pos rfl, if_neg hxa, if_neg hxb]
          simp only [Finset.mem_insert, hxb, false_or]
          exact h6 x y
    · by_cases hyb : y = b
      · subst hyb
        rw [if_neg hya]
        by_cases hxa : x = a
        · subst hxa
          rw [if_pos rfl, if_pos rfl]
          simp [Finset.mem_insert]
        · by_cases hxy : x = y
          · subst hxy
            rw [if_pos rfl, if_neg hxa]
          · rw [if_pos rfl, if_neg hxa, if_neg hxy]
            simp only [Finset.mem_insert, hxa, false_or]
            exact h6 x y
      · rw [if_neg hya, if_neg hyb]
        by_cases hxa : x = a
        · subst hxa
          rw [if_pos rfl]
          simp only [Finset.mem_insert, hyb, false_or]
          exact h6 x y
        · by_cases hxb : x = b
          · subst hxb
            rw [if_neg hxa, if_pos rfl]
            simp only [Finset.mem_insert, hya, false_or]
            exact h6 x y
          · rw [if_neg hxa, if_neg hxb]
            exact h6 x y
  · intro x
    dsimp only
    by_cases hxa : x = a
    · subst hxa
      rw [if_pos rfl]
      simp only [Finset.mem_insert]
      rintro (rfl | hmem)
      · exact hab rfl
      · exact h7 x hmem
    · by_cases hxb : x = b
      · subst hxb
        rw [if_neg hxa, if_pos rfl]
        simp only [Finset.mem_insert]
        rintro (rfl | hmem)
        · exact hxa rfl
        · exact h7 x hmem
      · rw [if_neg hxa, if_neg hxb]
        exact h7 x

theorem addExperience_waves {d : ℕ} (s : SysState d) (v : List ℝ)
    (kw : Finset String) (txt : String) :
    (addExperience s v kw txt).waves =
      s.waves.map (existingUpd (createWave s v kw txt)
          (pyOr (euclNorm (createWave s v kw txt).vector)))
        ++ [(interfLoop (pyOr (euclNorm (createWave s v kw txt).vector))
              (createWave s v kw txt) s.waves).1] := by
  simp only [addExperience, applyInterference]
  rw [interfLoop_waves _ s.waves _ _ rfl rfl rfl]

theorem sysInv_core {d : ℕ} (s : SysState d) (waves' : List (Wave d))
    (tensor' : Fin d → Fin d → ℂ) (time' : ℝ) (n : Wave d) (qn : ℝ)
    (hn_id : n.id = s.nextId) (hn_ent : n.entangledWith = ∅)
    (hw' : waves' = s.waves.map (existingUpd n qn) ++ [(interfLoop qn n s.waves).1])
    (h : SysInv s) :
    SysInv { waves := waves', fieldTensor := tensor', time := time',
             nextId := s.nextId + 1, graph := s.graph } := by
  obtain ⟨h1, h2, h3, h4, h5, h6, h7⟩ := h
  have hinj := List.inj_on_of_nodup_map h1
  have hNid : (interfLoop qn n s.waves).1.id = s.nextId := by
    rw [(interfLoop_fst_stable qn s.waves n).1, hn_id]
  have hNent : (interfLoop qn n s.waves).1.entangledWith = entIds n qn s.waves := by
    rw [interfLoop_fst_ent qn s.waves n, hn_ent, Finset.empty_union]
  have hentIds_lt : ∀ x ∈ entIds n qn s.waves, x < s.nextId := by
    intro x hx
    obtain ⟨w₂, hw₂, _, rfl⟩ := (mem_entIds n qn s.waves x).1 hx
    exact h2 w₂ hw₂
  have hentIds_iff : ∀ w ∈ s.waves,
      (w.id ∈ entIds n qn s.waves ↔ ENTANGLE_THRESHOLD < interfSim n w qn) := by
    intro w hw
    constructor
    · intro hx
      obtain ⟨w₂, hw₂, hs, heq⟩ := (mem_entIds n qn s.waves w.id).1 hx
      rw [hinj hw hw₂ heq]
      exact hs
    · intro hs
      exact (mem_entIds n qn s.waves w.id).2 ⟨w, hw, hs, rfl⟩
  have hmem_upd : ∀ w₀ ∈ s.waves, ∀ z, z < s.nextId →
      (z ∈ (existingUpd n qn w₀).entangledWith ↔ z ∈ w₀.entangledWith) := by
    intro w₀ _ z hz
    rw [existingUpd_ent]
    split
    · rw [Finset.mem_insert]
      constructor
      · rintro (rfl | hmem)
        · exact absurd hz (by rw [hn_id]; exact lt_irrefl _)
        · exact hmem
      · exact Or.inr
    · exact Iff.rfl
  have hnext_upd : ∀ w₀ ∈ s.waves,
      (s.nextId ∈ (existingUpd n qn w₀).entangledWith ↔
        ENTANGLE_THRESHOLD < interfSim n w₀ qn) := by
    intro w₀ hw₀
    rw [existingUpd_ent]
    split
    · rename_i hc
      rw [Finset.mem_insert]
      exact ⟨fun _ => hc, fun _ => Or.inl hn_id.symm⟩
    · rename_i hc
      constructor
      · intro hmem
        exact absurd (h3 w₀ hw₀ s.nextId hmem) (lt_irrefl _)
      · intro hc'
        exact absurd hc' hc
  subst hw'
  refine ⟨?_, ?_, ?_, ?_, ?_, h6, h7⟩
  · dsimp only
    rw [List.map_append, List.map_map]
    have hcomp : Wave.id ∘ existingUpd n qn = Wave.id := funext fun _ => rfl
    rw [hcomp]
    refine h1.append (List.nodup_singleton _) ?_
    intro x hx hx'
    rw [List.map_singleton, List.mem_singleton, hNid] at hx'
    obtain ⟨w₀, hw₀, rfl⟩ := List.mem_map.1 hx
    have hlt := h2 w₀ hw₀
    rw [hx'] at hlt
    exact absurd hlt (lt_irrefl _)
  · intro w hw
    rcases List.mem_append.1 hw with hw | hw
    · obtain ⟨w₀, hw₀, rfl⟩ := List.mem_map.1 hw
      exact Nat.lt_succ_of_lt (h2 w₀ hw₀)
    · rw [List.mem_singleton] at hw
      subst hw
      rw [hNid]
      exact Nat.lt_succ_self _
  · intro w hw x hx
    rcases List.mem_append.1 hw with hw | hw
    · obtain ⟨w₀, hw₀, rfl⟩ := List.mem_map.1 hw
      rw [existingUpd_ent] at hx
      have : x = n.id ∨ x ∈ w₀.entangledWith := by
        revert hx
        split
        · rw [Finset.mem_insert]
          exact id
        · exact Or.inr
      rcases this with rfl | hx'
      · rw [hn_id]
        exact Nat.lt_succ_self _
      · exact Nat.lt_succ_of_lt (h3 w₀ hw₀ x hx')
    · rw [List.mem_singleton] at hw
      subst hw
      rw [hNent] at hx
      exact Nat.lt_succ_of_lt (hentIds_lt x hx)
  · intro w hw
    rcases List.mem_append.1 hw with hw | hw
    · obtain ⟨w₀, hw₀, rfl⟩ := List.mem_map.1 hw
      rw [existingUpd_id, hmem_upd w₀ hw₀ w₀.id (h2 w₀ hw₀)]
      exact h4 w₀ hw₀
    · rw [List.mem_singleton] at hw
      subst hw
      rw [hNid, hNent]
      intro hmem
      exact absurd (hentIds_lt _ hmem) (lt_irrefl _)
  · intro A hA B hB
    rcases List.mem_append.1 hA with hA | hA <;> rcases List.mem_append.1 hB with hB | hB
    · obtain ⟨a₀, hA₀, rfl⟩ := List.mem_map.1 hA
      obtain ⟨b₀, hB₀, rfl⟩ := List.mem_map.1 hB
      rw [existingUpd_id, existingUpd_id,
        hmem_upd b₀ hB₀ a₀.id (h2 a₀ hA₀), hmem_upd a₀ hA₀ b₀.id (h2 b₀ hB₀)]
      exact h5 a₀ hA₀ b₀ hB₀
    · obtain ⟨a₀, hA₀, rfl⟩ := List.mem_map.1 hA
      rw [List.mem_singleton] at hB
      subst hB
      rw [existingUpd_id, hNid, hNent, hentIds_iff a₀ hA₀, hnext_upd a₀ hA₀]
    · rw [List.mem_singleton] at hA
      subst hA
      obtain ⟨b₀, hB₀, rfl⟩ := List.mem_map.1 hB
      rw [existingUpd_id, hNid, hNent, hentIds_iff b₀ hB₀, hnext_upd b₀ hB₀]
    · rw [List.mem_singleton] at hA
      rw [List.mem_singleton] at hB
      subst hA
      subst hB
      exact Iff.rfl

theorem sysInv_add {d : ℕ} (s : SysState d) (v : List ℝ) (kw : Finset String)
    (txt : String) (h : SysInv s) : SysInv (addExperience s v kw txt) :=
  sysInv_core s (addExperience s v kw txt).waves
    (addExperience s v kw txt).fieldTensor (addExperience s v kw txt).time
    (createWave s v kw txt) (pyOr (euclNorm (createWave s v kw txt).vector))
    rfl rfl (addExperience_waves s v kw txt) h

theorem sysInv_step {d : ℕ} {s s' : SysState d} (hs : Step s s') (h : SysInv s) :
    SysInv s' := by
  cases hs with
  | add v kw txt => exact sysInv_add s v kw txt h
  | decay f hf => exact sysInv_decay s f h
  | consolidate => exact sysInv_consolidate s h
  | prune => exact sysInv_prune s h
  | entangle a b ha hb => exact sysInv_entangle s a b ha hb h

theorem reachable_sysInv {d : ℕ} {s : SysState d} (h : Reachable s) : SysInv s := by
  induction h with
  | refl => exact sysInv_init d
  | tail _ hstep ih => exact sysInv_step hstep ih

-- ## Claim C6

/-- Claim C6, counterexample: in the reachable state `cexCeil` the
similarity trigger of `add_experience` has made the two waves mutually
entangled at wave level, while the separate `QuantumEntanglement` adjacency
graph (which `add_experience` never updates) still records no edge at all —
so the graph does not record "the same edges" as the waves. -/
theorem entanglement_graph_counterexample :
    Reachable cexCeil ∧
    ∃ a ∈ cexCeil.waves, ∃ b ∈ cexCeil.waves,
      b.id ∈ a.entangledWith ∧ b.id ∉ cexCeil.graph a.id := by
  constructor
  · exact Relation.ReflTransGen.tail
      (Relation.ReflTransGen.tail Relation.ReflTransGen.refl
        (Step.add (initState 1) [] kwBig ""))
      (Step.add (addExperience (initState 1) [] kwBig "") [] kwBig "")
  · have hcard : kwBig.card = (134 : ℕ) := by decide
    have hrv : resizeVec 1 ([] : List ℝ) = fun _ => 0 := by
      funext i
      simp [resizeVec]
    have hnorm : euclNorm (fun _ : Fin 1 => (0 : ℝ)) = 0 := by
      simp [euclNorm]
    unfold cexCeil
    simp only [addExperience, applyInterference, interfLoop, existingUpd, newUpd,
      interfSim, createWave, initState, hrv, hnorm, dotP, pyOr]
    norm_num [hcard, KEYWORD_BONUS, ENTANGLE_THRESHOLD, CONSTRUCTIVE_THRESHOLD]

/-- Claim C6 (amended): wave-level entanglement membership is symmetric in
every reachable state and preserved by every operation; the separate adjacency
graph is itself symmetric, and `entangle_waves` records each edge in both
directions; but (see the counterexample) the `add_experience` trigger updates
only the waves, so the graph need not list the same edges as the waves. -/
theorem entanglement_symmetry {d : ℕ} (s : SysState d) (hs : Reachable s) :
    (∀ a ∈ s.waves, ∀ b ∈ s.waves, (a.id ∈ b.entangledWith ↔ b.id ∈ a.entangledWith)) ∧
    (∀ x y, x ∈ s.graph y ↔ y ∈ s.graph x) ∧
    (∀ a b, a ≠ b →
      b ∈ (entangleWaves s a b).graph a ∧ a ∈ (entangleWaves s a b).graph b) := by
  obtain ⟨_, _, _, _, h5, h6, _⟩ := reachable_sysInv hs
  refine ⟨h5, h6, ?_⟩
  intro a b hab
  unfold entangleWaves
  rw [if_neg hab]
  dsimp only
  constructor
  · rw [if_pos rfl]
    exact Finset.mem_insert_self _ _
  · rw [if_neg (Ne.symm hab), if_pos rfl]
    exact Finset.mem_insert_self _ _

/-- Witness for `entanglement_symmetry` at the empty reachable state and the
concrete edge `(0, 1)`. -/
theorem entanglement_symmetry_witness :
    1 ∈ (entangleWaves (initState 1) 0 1).graph 0 ∧
    0 ∈ (entangleWaves (initState 1) 0 1).graph 1 ∧
    (3 ∈ (initState 1).graph 7 ↔ 7 ∈ (initState 1).graph 3) := by
  have h := entanglement_symmetry (initState 1) Relation.ReflTransGen.refl
  have h2 := h.2.2 0 1 (by decide)
  exact ⟨h2.1, h2.2, h.2.1 3 7⟩

-- ## Claim C10

/-- Claim C10: in every reachable state no wave is entangled with itself and
the adjacency graph has no self-loop; `entangle_waves` on a wave and itself is
a no-op; and the new wave of `add_experience` is only ever entangled with ids
of pre-existing waves. -/
theorem no_self_entanglement {d : ℕ} (s : SysState d) (hs : Reachable s) :
    (∀ w ∈ s.waves, w.id ∉ w.entangledWith) ∧
    (∀ x, x ∉ s.graph x) ∧
    (∀ a, entangleWaves s a a = s) ∧
    (∀ v kw txt, ∀ x ∈ (newWaveOf s v kw txt).entangledWith,
        x ∈ s.waves.map Wave.id) := by
  obtain ⟨_, _, _, h4, _, _, h7⟩ := reachable_sysInv hs
  refine ⟨h4, h7, ?_, ?_⟩
  · intro a
    unfold entangleWaves
    rw [if_pos rfl]
  · intro v kw txt x hx
    unfold newWaveOf applyInterference at hx
    dsimp only at hx
    rw [interfLoop_fst_ent] at hx
    have hent : (createWave s v kw txt).entangledWith = ∅ := rfl
    rw [hent, Finset.empty_union] at hx
    obtain ⟨w₂, hw₂, _, rfl⟩ := (mem_entIds _ _ _ _).1 hx
    exact List.mem_map.2 ⟨w₂, hw₂, rfl⟩

/-- Witness for `no_self_entanglement` at the empty reachable state. -/
theorem no_self_entanglement_witness :
    (entangleWaves (initState 1) 5 5 = initState 1) ∧
    (3 ∉ (initState 1).graph 3) := by
  have h := no_self_entanglement (initState 1) Relation.ReflTransGen.refl
  exact ⟨h.2.2.1 5, h.2.1 3⟩

-- ## Claim C1

/-- Claim C1, counterexample: amplitudes are not confined to the window
`[MIN_DECAY, max_amplitude]` over reachable states.  Two decay passes at the
decay-floor factor `0.05` drive an amplitude to `0.0025 < 0.05`, and one
uncapped constructive-interference boost (`_apply_interference` has no
ceiling) drives an amplitude to `2.005 > 2.0`. -/
theorem amplitude_window_counterexample :
    (Reachable cexFloor ∧ ∃ w ∈ cexFloor.waves, w.amplitude < MIN_DECAY) ∧
    (Reachable cexCeil ∧ ∃ w ∈ cexCeil.waves, maxAmplitude < w.amplitude) := by
  constructor
  · constructor
    · exact Relation.ReflTransGen.tail
        (Relation.ReflTransGen.tail
          (Relation.ReflTransGen.tail Relation.ReflTransGen.refl
            (Step.add (initState 1) [] ∅ ""))
          (Step.decay _ _ (fun _ => by norm_num)))
        (Step.decay _ _ (fun _ => by norm_num))
    · unfold cexFloor
      simp only [decayAll, decayWave, addExperience, applyInterference, interfLoop,
        createWave, initState]
      norm_num [MIN_DECAY]
  · constructor
    · exact Relation.ReflTransGen.tail
        (Relation.ReflTransGen.tail Relation.ReflTransGen.refl
          (Step.add (initState 1) [] kwBig ""))
        (Step.add (addExperience (initState 1) [] kwBig "") [] kwBig "")
    · have hcard : kwBig.card = (134 : ℕ) := by decide
      have hrv : resizeVec 1 ([] : List ℝ) = fun _ => 0 := by
        funext i
        simp [resizeVec]
      have hnorm : euclNorm (fun _ : Fin 1 => (0 : ℝ)) = 0 := by
        simp [euclNorm]
      unfold cexCeil
      simp only [addExperience, applyInterference, interfLoop, existingUpd, newUpd,
        interfSim, createWave, initState, hrv, hnorm, dotP, pyOr]
      norm_num [hcard, KEYWORD_BONUS, CONSTRUCTIVE_THRESHOLD, maxAmplitude]

/-- Claim C1 (amended): the per-operation amplitude guarantees that do hold.
A created wave has amplitude `1.0`; one decay multiplies the amplitude by a
factor in `[MIN_DECAY, MAX_DECAY]`, so it never increases a non-negative
amplitude and shrinks it by at most the factor `0.05` (repeated decays may
still fall below the floor); consolidation's strengthening is capped at
`max_amplitude = 2.0`, so a consolidation pass never raises an amplitude above
`max(previous, 2.0)` — but interference boosts are uncapped, so no global
window invariant holds (see the counterexample). -/
theorem amplitude_operation_bounds {d : ℕ} (s : SysState d) (v : List ℝ)
    (kw : Finset String) (txt : String) (t fac : ℝ) (w : Wave d)
    (hmin : MIN_DECAY ≤ fac) (hmax : fac ≤ MAX_DECAY) (hamp : 0 ≤ w.amplitude) :
    (createWave s v kw txt).amplitude = 1 ∧
    (decayWave fac w).amplitude = w.amplitude * fac ∧
    MIN_DECAY * w.amplitude ≤ (decayWave fac w).amplitude ∧
    (decayWave fac w).amplitude ≤ w.amplitude ∧
    (applyConsolidation w).amplitude ≤ maxAmplitude ∧
    (consolidateWave t w).amplitude ≤ max w.amplitude maxAmplitude := by
  refine ⟨rfl, rfl, ?_, ?_, ?_, ?_⟩
  · show MIN_DECAY * w.amplitude ≤ w.amplitude * fac
    rw [mul_comm w.amplitude fac]
    exact mul_le_mul_of_nonneg_right hmin hamp
  · show w.amplitude * fac ≤ w.amplitude
    exact mul_le_of_le_one_right hamp hmax
  · show min (w.amplitude * 1.1) 2 ≤ maxAmplitude
    exact min_le_right _ _
  · unfold consolidateWave
    split
    · show min (w.amplitude * 1.1) 2 ≤ max w.amplitude maxAmplitude
      exact le_trans (min_le_right _ _) (le_max_right _ _)
    · exact le_max_left _ _

/-- Witness for `amplitude_operation_bounds` at a concrete wave and the
concrete decay factor `0.05`. -/
theorem amplitude_operation_bounds_witness :
    (createWave (initState 1) [] ∅ "").amplitude = 1 ∧
    (decayWave 0.05 (createWave (initState 1) [] ∅ "")).amplitude ≤
      (createWave (initState 1) [] ∅ "").amplitude ∧
    (applyConsolidation (createWave (initState 1) [] ∅ "")).amplitude ≤ maxAmplitude := by
  have h := amplitude_operation_bounds (initState 1) [] ∅ "" 0 0.05
    (createWave (initState 1) [] ∅ "") (by norm_num [MIN_DECAY])
    (by norm_num [MAX_DECAY]) (by exact zero_le_one)
  exact ⟨h.1, h.2.2.2.1, h.2.2.2.2.1⟩

-- ## Claim C8

/-- Every clamp `max MIN_DECAY (min raw MAX_DECAY)` lies in
`[MIN_DECAY, MAX_DECAY]`, whatever the raw value. -/
theorem decay_clamp_mem (raw : ℝ) :
    MIN_DECAY ≤ max MIN_DECAY (min raw MAX_DECAY) ∧
      max MIN_DECAY (min raw MAX_DECAY) ≤ MAX_DECAY := by
  constructor
  · exact le_max_left _ _
  · refine max_le (by norm_num [MIN_DECAY, MAX_DECAY]) (min_le_right _ _)

/-- Claim C8, counterexample: `power_law_decay` does not return a factor at
`time_delta = -1` (in the source, `1.0 / 0.0` raises `ZeroDivisionError`;
for any `time_delta < -1` the fractional power is complex and the clamp
raises `TypeError`). -/
theorem power_law_negative_counterexample :
    power_law_decay (-1) = none := by
  unfold power_law_decay
  rw [if_pos (by norm_num)]

/-- Claim C8 (amended): `exponential_decay`, `adaptive_decay` and
`interference_protected_decay` return a factor in `[MIN_DECAY, MAX_DECAY]` for
every real `time_delta` and every wave / resonance-count argument;
`power_law_decay` does so exactly for `time_delta > -1`, and fails (instead of
returning a factor) for every `time_delta ≤ -1`. -/
theorem decay_factors_bounded {d : ℕ} :
    (∀ t : ℝ, MIN_DECAY ≤ exponential_decay t ∧ exponential_decay t ≤ MAX_DECAY) ∧
    (∀ (w : Wave d) (t : ℝ),
      MIN_DECAY ≤ adaptive_decay w t ∧ adaptive_decay w t ≤ MAX_DECAY) ∧
    (∀ (t : ℝ) (r : ℤ),
      MIN_DECAY ≤ interference_protected_decay t r ∧
        interference_protected_decay t r ≤ MAX_DECAY) ∧
    (∀ t : ℝ, -1 < t →
      ∃ fac, power_law_decay t = some fac ∧ MIN_DECAY ≤ fac ∧ fac ≤ MAX_DECAY) ∧
    (∀ t : ℝ, t ≤ -1 → power_law_decay t = none) := by
  refine ⟨fun t => decay_clamp_mem _, fun w t => decay_clamp_mem _,
    fun t r => decay_clamp_mem _, ?_, ?_⟩
  · intro t ht
    refine ⟨max MIN_DECAY (min (1 / Real.sqrt (1 + t)) MAX_DECAY), ?_,
      decay_clamp_mem _⟩
    unfold power_law_decay
    rw [if_neg (by linarith)]
  · intro t ht
    unfold power_law_decay
    rw [if_pos (by linarith)]

/-- Witness for `decay_factors_bounded` at concrete time deltas, a concrete
wave and a concrete resonance count. -/
theorem decay_factors_bounded_witness :
    (MIN_DECAY ≤ exponential_decay 300 ∧ exponential_decay 300 ≤ MAX_DECAY) ∧
    (MIN_DECAY ≤ adaptive_decay (createWave (initState 1) [] ∅ "") 7 ∧
      adaptive_decay (createWave (initState 1) [] ∅ "") 7 ≤ MAX_DECAY) ∧
    (MIN_DECAY ≤ interference_protected_decay 2 (-50) ∧
      interference_protected_decay 2 (-50) ≤ MAX_DECAY) ∧
    (∃ fac, power_law_decay 0 = some fac ∧ MIN_DECAY ≤ fac ∧ fac ≤ MAX_DECAY) ∧
    power_law_decay (-3) = none := by
  have h := decay_factors_bounded (d := 1)
  exact ⟨h.1 300, h.2.1 (createWave (initState 1) [] ∅ "") 7, h.2.2.1 2 (-50),
    h.2.2.2.1 0 (by norm_num), h.2.2.2.2 (-3) (by norm_num)⟩

-- ## Claim C3

theorem energyTerm_nonneg {d : ℕ} (w : Wave d) : 0 ≤ energyTerm w := by
  refine le_min (by norm_num) (mul_nonneg (sq_nonneg _) ?_)
  exact le_trans (by norm_num) (le_max_left _ _)

theorem kineticFold_nonneg {d : ℕ} (l : List (Wave d)) : 0 ≤ kineticFold l := by
  have key : ∀ (l' : List (Wave d)) (k : ℝ), 0 ≤ k →
      0 ≤ l'.foldl (fun k w => min 1e15 (k + energyTerm w)) k := by
    intro l'
    induction l' with
    | nil => exact fun k hk => hk
    | cons w rest ih =>
      intro k hk
      exact ih _ (le_min (by norm_num) (add_nonneg hk (energyTerm_nonneg w)))
  exact key l 0 le_rfl

/-- Claim C3: `get_field_energy` never exceeds the cap `1e15` (the returned
value is the minimum of the cap and the accumulated total), and it is a
well-defined non-negative real for every field state — in particular for every
reachable one, however pathological the amplitudes. -/
theorem field_energy_capped {d : ℕ} (s : SysState d) :
    getFieldEnergy s ≤ 1e15 ∧ 0 ≤ getFieldEnergy s := by
  constructor
  · exact min_le_left _ _
  · refine le_min (by norm_num) ?_
    refine add_nonneg (add_nonneg (kineticFold_nonneg s.waves) ?_) ?_
    · refine le_min (by norm_num) ?_
      refine Finset.sum_nonneg fun i _ => ?_
      exact Finset.sum_nonneg fun j _ => sq_nonneg _
    · exact mul_nonneg (by norm_num) (Nat.cast_nonneg _)

-- ## Claim C7

/-- Claim C7: `find_resonances` leaves the field state unchanged (the source
performs no assignment to any field attribute), and a second call on the
resulting state with the same query returns the identical ordered result
list — retrieval is deterministic and side-effect free. -/
theorem find_resonances_deterministic {d : ℕ} (s : SysState d)
    (q : Option (Fin d → ℝ)) (k : ℕ) :
    (findResonances s q k).1 = s ∧
    (findResonances (findResonances s q k).1 q k).2 = (findResonances s q k).2 := by
  have h1 : (findResonances s q k).1 = s := by
    cases q with
    | none => rfl
    | some qv =>
      unfold findResonances
      dsimp only
      split <;> rfl
  exact ⟨h1, by rw [h1]⟩

-- ## Claim C2

theorem updateFieldTensor_spec {d : ℕ} (T : Fin d → Fin d → ℂ) (w : Wave d) :
    maxAbsEntry (updateFieldTensor T w) ≤ FIELD_NORM_LIMIT ∧
    ∃ c : ℝ, 0 < c ∧ ∀ i j,
      updateFieldTensor T w i j = (T i j + tensorContrib w i j) / (c : ℂ) := by
  unfold updateFieldTensor
  dsimp only
  by_cases hclip :
      FIELD_NORM_LIMIT < maxAbsEntry (fun i j => T i j + tensorContrib w i j)
  · rw [if_pos hclip]
    have hM0 : maxAbsEntry (fun i j => T i j + tensorContrib w i j) ≠ 0 := by
      intro h0
      rw [h0] at hclip
      exact absurd hclip (by simp)
    have hdiv0 :
        maxAbsEntry (fun i j => T i j + tensorContrib w i j) / FIELD_NORM_LIMIT ≠ 0 := by
      rw [div_ne_zero_iff]
      exact ⟨hM0, by norm_num [FIELD_NORM_LIMIT]⟩
    have hdivpos :
        0 < maxAbsEntry (fun i j => T i j + tensorContrib w i j) / FIELD_NORM_LIMIT :=
      pos_iff_ne_zero.2 hdiv0
    constructor
    · refine Finset.sup_le ?_
      intro p _
      have h10 : FIELD_NORM_LIMIT *
          (maxAbsEntry (fun i j => T i j + tensorContrib w i j) / FIELD_NORM_LIMIT) =
          maxAbsEntry (fun i j => T i j + tensorContrib w i j) := by
        rw [mul_comm]
        exact div_mul_cancel₀ _ (by norm_num [FIELD_NORM_LIMIT])
      rw [nnnorm_div, Complex.nnnorm_real, NNReal.nnnorm_eq,
        div_le_iff₀ hdivpos, h10]
      exact @Finset.le_sup NNReal (Fin d × Fin d) _ _ Finset.univ
        (fun q => ‖T q.1 q.2 + tensorContrib w q.1 q.2‖₊) p (Finset.mem_univ p)
    · refine ⟨((maxAbsEntry (fun i j => T i j + tensorContrib w i j) /
        FIELD_NORM_LIMIT : NNReal) : ℝ), ?_, fun i j => rfl⟩
      exact_mod_cast pos_iff_ne_zero.2 hdiv0
  · rw [if_neg hclip]
    refine ⟨not_lt.1 hclip, 1, one_pos, fun i j => ?_⟩
    rw [Complex.ofReal_one, div_one]

/-- Claim C2: after any `add_experience` call on a field of positive dimension
(the only kind the code can run: `np.max` of an empty tensor would itself
fail), the field tensor's largest absolute entry is at most
`FIELD_NORM_LIMIT = 10`; and the tensor update is exactly the accumulation of
the new wave's rank-1 contribution followed by division of the whole tensor by
a single positive scalar (`1` when no clipping is needed) — no entry is zeroed
or dropped. -/
theorem field_tensor_clipped {d : ℕ} (_hd : 0 < d) (s : SysState d) (v : List ℝ)
    (kw : Finset String) (txt : String) :
    maxAbsEntry (addExperience s v kw txt).fieldTensor ≤ FIELD_NORM_LIMIT ∧
    ∃ c : ℝ, 0 < c ∧ ∀ i j,
      (addExperience s v kw txt).fieldTensor i j =
        (s.fieldTensor i j + tensorContrib (newWaveOf s v kw txt) i j) / (c : ℂ) := by
  exact updateFieldTensor_spec s.fieldTensor (newWaveOf s v kw txt)

/-- Witness for `field_tensor_clipped` at dimension `1` and a concrete call. -/
theorem field_tensor_clipped_witness :
    maxAbsEntry (addExperience (initState 1) [] ∅ "").fieldTensor ≤ FIELD_NORM_LIMIT ∧
    ∃ c : ℝ, 0 < c ∧ ∀ i j,
      (addExperience (initState 1) [] ∅ "").fieldTensor i j =
        ((initState 1).fieldTensor i j +
          tensorContrib (newWaveOf (initState 1) [] ∅ "") i j) / (c : ℂ) :=
  field_tensor_clipped (by norm_num) (initState 1) [] ∅ ""

-- ## Norm helper lemmas for collapse and superposition

theorem cnorm_nonneg (l : List ℂ) : 0 ≤ cnorm l := Real.sqrt_nonneg _

theorem normSqSum_nonneg (l : List ℂ) :
    0 ≤ (l.map (fun z => Complex.normSq z)).sum := by
  induction l with
  | nil => simp
  | cons z zs ih =>
    simp only [List.map_cons, List.sum_cons]
    exact add_nonneg (Complex.normSq_nonneg z) ih

theorem list_sum_div (l : List ℝ) (c : ℝ) :
    (l.map (fun x => x / c)).sum = l.sum / c := by
  induction l with
  | nil => simp
  | cons x xs ih => simp [ih, add_div]

theorem cnorm_map_div (l : List ℂ) (c : ℝ) (hc : 0 < c) :
    cnorm (l.map (fun z => z / (c : ℂ))) = cnorm l / c := by
  unfold cnorm
  rw [List.map_map]
  have h1 : ((fun z => Complex.normSq z) ∘ fun z => z / (c : ℂ)) =
      fun z => Complex.normSq z / c ^ 2 := by
    funext z
    simp only [Function.comp_apply, Complex.normSq_div, Complex.normSq_ofReal, sq]
  rw [h1]
  have h2 : (l.map fun z => Complex.normSq z / c ^ 2) =
      (l.map fun z => Complex.normSq z).map (fun x => x / c ^ 2) := by
    rw [List.map_map]
    exact rfl
  rw [h2, list_sum_div, Real.sqrt_div (normSqSum_nonneg l), Real.sqrt_sq hc.le]

theorem cnorm_unit (l : List ℂ) (h : cnorm l ≠ 0) :
    cnorm (l.map (fun z => z / (cnorm l : ℂ))) = 1 := by
  have hpos : 0 < cnorm l := lt_of_le_of_ne (cnorm_nonneg l) (Ne.symm h)
  rw [cnorm_map_div l (cnorm l) hpos, div_self h]

-- ## Claim C4

/-- Claim C4, counterexample: `collapse_wavefunction` truncates the
measurement to the common length before the zero-norm check, so it also fails
on the non-zero measurement `[0, 1]` against the length-1 superposition `[1]`
— the failure condition is not "measurement has zero magnitude". -/
theorem collapse_zero_check_counterexample :
    collapseWavefunction [1] [0, 1] =
      Except.error "Measurement vector cannot be zero-norm." ∧
    cnorm [(0 : ℂ), 1] ≠ 0 := by
  constructor
  · unfold collapseWavefunction
    norm_num [cnorm]
  · norm_num [cnorm, Complex.normSq]

/-- Claim C4 (amended): `collapse_wavefunction` fails with the invalid-input
error exactly when the measurement vector truncated to the common length
`min(len(state), len(measurement))` has zero magnitude (so also for a non-zero
measurement whose truncation is zero, and in particular for an all-zero
measurement); the embedding is a pure function, so on failure nothing is
modified.  Otherwise it returns the unit-normalised truncated measurement —
whose norm is exactly `1` — together with the squared magnitude of its inner
product with the truncated superposition. -/
theorem collapse_truncated_zero_check (psi m : List ℂ) :
    (cnorm (m.take (min psi.length m.length)) = 0 →
      collapseWavefunction psi m =
        Except.error "Measurement vector cannot be zero-norm.") ∧
    (cnorm (m.take (min psi.length m.length)) ≠ 0 →
      collapseWavefunction psi m = Except.ok
        ((m.take (min psi.length m.length)).map
            (fun z => z / (cnorm (m.take (min psi.length m.length)) : ℂ)),
          Complex.abs ((List.zipWith (fun a b => (starRingEnd ℂ) a * b)
            ((m.take (min psi.length m.length)).map
              (fun z => z / (cnorm (m.take (min psi.length m.length)) : ℂ)))
            (psi.take (min psi.length m.length))).sum) ^ 2) ∧
      cnorm ((m.take (min psi.length m.length)).map
        (fun z => z / (cnorm (m.take (min psi.length m.length)) : ℂ))) = 1) := by
  constructor
  · intro h0
    unfold collapseWavefunction
    rw [if_pos h0]
  · intro h0
    constructor
    · unfold collapseWavefunction
      rw [if_neg h0]
    · exact cnorm_unit _ h0

/-- Witness for `collapse_truncated_zero_check`: the all-zero measurement
`[0]` fails, and the unit measurement `[1]` collapses `[1]` with
probability `1`. -/
theorem collapse_truncated_zero_check_witness :
    collapseWavefunction [1] [0] =
      Except.error "Measurement vector cannot be zero-norm." ∧
    cnorm (([1] : List ℂ).map
      (fun z => z / (cnorm (([1] : List ℂ).take (min 1 1)) : ℂ))) = 1 := by
  have h1 := (collapse_truncated_zero_check [1] [0]).1
  have h2 := (collapse_truncated_zero_check [1] [1]).2
  constructor
  · exact h1 (by norm_num [cnorm])
  · have := (h2 (by norm_num [cnorm, Complex.normSq])).2
    simpa using this

-- ## Claim C5

theorem superSum_length {d : ℕ} (ws : List (Wave d)) (n : ℕ) :
    (superSum ws n).length = n := by
  unfold superSum
  have key : ∀ (l : List (Wave d)) (acc : List ℂ), acc.length = n →
      (l.foldl
        (fun acc w =>
          match w.quantumState with
          | none => acc
          | some qs =>
            List.zipWith (· + ·) acc
              ((padTo n qs).map fun z =>
                (w.amplitude : ℂ) * Complex.exp (Complex.I * (w.phase : ℂ)) * z))
        acc).length = n := by
    intro l
    induction l with
    | nil => exact fun acc h => h
    | cons w rest ih =>
      intro acc hacc
      rw [List.foldl_cons]
      apply ih
      cases hq : w.quantumState with
      | none => simpa [hq] using hacc
      | some qs =>
        simp only [hq, List.length_zipWith, List.length_map]
        rw [hacc]
        simp [padTo]
  exact key ws (List.replicate n 0) (List.length_replicate _ _)

/-- Claim C5, counterexample: `create_superposition` of the single wave
`wZero` (amplitude `0`, quantum state `[1]`) accumulates the zero vector;
since its norm is not positive the code skips normalisation and returns the
zero vector of length `1` — a non-empty result without unit norm, and not the
unit-normalisation of the sum (which does not exist for a zero sum). -/
theorem superposition_zero_sum_counterexample :
    createSuperposition [wZero] = [(0 : ℂ)] ∧ cnorm [(0 : ℂ)] = 0 := by
  have hsum : superSum [wZero] 1 = [(0 : ℂ)] := by
    simp [superSum, padTo, wZero, List.range_succ]
  have hdim : maxQDim [wZero] = 1 := by
    simp [maxQDim, wZero]
  have hnorm : cnorm [(0 : ℂ)] = 0 := by
    simp [cnorm]
  refine ⟨?_, hnorm⟩
  unfold createSuperposition
  simp only [List.isEmpty_cons, Bool.false_eq_true, if_false, hdim, hsum, hnorm]
  norm_num

/-- Claim C5 (amended): `create_superposition` returns the empty vector for an
empty wave list or when no wave has a quantum state; otherwise its result has
length equal to the maximum quantum-state length, and equals the
unit-normalisation of the accumulated sum — with unit norm — whenever that sum
has positive norm; when the accumulated sum is the zero vector (e.g. through
zero amplitudes or phase cancellation) the sum is returned unnormalised, so
the non-empty result does not always have unit norm. -/
theorem superposition_normalisation {d : ℕ} (ws : List (Wave d)) :
    (ws = [] → createSuperposition ws = []) ∧
    (maxQDim ws = 0 → createSuperposition ws = []) ∧
    (ws ≠ [] → maxQDim ws ≠ 0 →
      (createSuperposition ws).length = maxQDim ws ∧
      (0 < cnorm (superSum ws (maxQDim ws)) →
        createSuperposition ws =
          (superSum ws (maxQDim ws)).map
            (fun z => z / (cnorm (superSum ws (maxQDim ws)) : ℂ)) ∧
        cnorm (createSuperposition ws) = 1) ∧
      (cnorm (superSum ws (maxQDim ws)) = 0 →
        createSuperposition ws = superSum ws (maxQDim ws))) := by
  refine ⟨?_, ?_, ?_⟩
  · rintro rfl
    rfl
  · intro h0
    cases ws with
    | nil => rfl
    | cons w rest =>
      unfold createSuperposition
      simp only [List.isEmpty_cons, Bool.false_eq_true, if_false]
      rw [if_pos h0]
  · intro hne h0
    have hchar : createSuperposition ws =
        if 0 < cnorm (superSum ws (maxQDim ws)) then
          (superSum ws (maxQDim ws)).map
            (fun z => z / (cnorm (superSum ws (maxQDim ws)) : ℂ))
        else superSum ws (maxQDim ws) := by
      cases ws with
      | nil => exact absurd rfl hne
      | cons w rest =>
        unfold createSuperposition
        simp only [List.isEmpty_cons, Bool.false_eq_true, if_false]
        rw [if_neg h0]
    refine ⟨?_, ?_, ?_⟩
    · rw [hchar]
      split
      · rw [List.length_map, superSum_length]
      · rw [superSum_length]
    · intro hpos
      rw [hchar, if_pos hpos]
      exact ⟨rfl, cnorm_unit _ (ne_of_gt hpos)⟩
    · intro hz
      rw [hchar, if_neg (by rw [hz]; exact lt_irrefl 0)]

/-- Witness for `superposition_normalisation`: the empty list gives the empty
vector, and the single unit wave `wUnit` gives a unit-norm state of length 1. -/
theorem superposition_normalisation_witness :
    createSuperposition ([] : List (Wave 0)) = [] ∧
    (createSuperposition [wUnit]).length = maxQDim [wUnit] ∧
    cnorm (createSuperposition [wUnit]) = 1 := by
  have hpos : 0 < cnorm (superSum [wUnit] (maxQDim [wUnit])) := by
    have hdim : maxQDim [wUnit] = 1 := by
      simp [maxQDim, wUnit]
    have hsum : superSum [wUnit] 1 = [(1 : ℂ)] := by
      simp [superSum, padTo, wUnit, List.range_succ]
    rw [hdim, hsum]
    norm_num [cnorm, Complex.normSq]
  have h := (superposition_normalisation [wUnit]).2.2 (by simp)
    (by simp [maxQDim, wUnit])
  exact ⟨(superposition_normalisation ([] : List (Wave 0))).1 rfl,
    h.1, (h.2.1 hpos).2⟩

-- ## Claim C9

/-- Claim C9: reconstructing with an all-ones damage mask of the hologram's
own shape returns exactly the same array as reconstructing with no mask; a
mask of any other shape is the hard shape-mismatch failure; and `reconstruct`
never modifies the hologram state (it reads `self.hologram` through a copy). -/
theorem hologram_reconstruct_mask {S : ℕ} (mem : HoloState S) :
    reconstructS mem (some (S, S, fun _ _ => 1)) = reconstructS mem none ∧
    (∀ m n M, ¬(m = S ∧ n = S) →
      reconstructS mem (some (m, n, M)) =
        (mem, Except.error "damage_mask must match hologram shape")) ∧
    (∀ mask, (reconstructS mem mask).1 = mem) := by
  refine ⟨?_, ?_, ?_⟩
  · unfold reconstructS
    dsimp only
    rw [if_pos ⟨rfl, rfl⟩]
    have hH : (fun i j => mem.hologram i j * (((1 : ℝ)) : ℂ)) = mem.hologram := by
      funext i j
      rw [Complex.ofReal_one, mul_one]
    rw [hH]
  · intro m n M h
    unfold reconstructS
    dsimp only
    rw [if_neg h]
  · intro mask
    unfold reconstructS
    match mask with
    | none => rfl
    | some (m, n, M) =>
      dsimp only
      split <;> rfl

/-- Witness for `hologram_reconstruct_mask` on a concrete size-1 hologram and
a concrete `2 × 3` mismatched mask. -/
theorem hologram_reconstruct_mask_witness :
    reconstructS (⟨fun _ _ => 0, 0⟩ : HoloState 1) (some (1, 1, fun _ _ => 1)) =
      reconstructS (⟨fun _ _ => 0, 0⟩ : HoloState 1) none ∧
    reconstructS (⟨fun _ _ => 0, 0⟩ : HoloState 1) (some (2, 3, fun _ _ => 1)) =
      ((⟨fun _ _ => 0, 0⟩ : HoloState 1),
        Except.error "damage_mask must match hologram shape") := by
  have h := hologram_reconstruct_mask (⟨fun _ _ => 0, 0⟩ : HoloState 1)
  exact ⟨h.1, h.2.1 2 3 (fun _ _ => 1) (by decide)⟩
